import Mathlib

/-!
Verification of the `marketo-challenge` lead-deduplication program
(`src/index.js`).

The core of the program is the `leads.forEach` reconciliation loop and the
`writeLog` changelog renderer.  We embed both shallowly:

* A JS value (as obtained from parsed JSON, plus the `undefined` that property
  access on a missing key yields) is modelled by `Value`.
* A JS object (a lead / a record's current data) is modelled by an ordered
  association list `FieldMap`; `jsGet` models property access (missing key
  gives `undefined`), `jsSet` models property assignment (overwrite in place,
  otherwise append, matching JS insertion-order semantics).
* `new Date(v).getTime()` is unmodellable JS date parsing; we abstract it as a
  parameter `parse : Value → Option Int`, `none` standing for `NaN`.  The JS
  comparison `incomingDate >= originalDate` (false whenever either side is
  `NaN`) is `dateGe`.
* The reconciliation loop becomes `reconcile` (a fold of `reconcileStep`);
  the renderer `writeLog` becomes `displayData` / `renderRecord` / `renderAll`,
  with `Option` modelling the TypeError thrown on an empty field map.
-/

namespace Marketo

/-- A JSON-primitive JS value, plus `undef` for JavaScript `undefined`
(the result of accessing an absent property). -/
inductive Value where
  | str : String → Value
  | num : Int → Value
  | bool : Bool → Value
  | null : Value
  | undef : Value
deriving DecidableEq

/-- A JS object: an insertion-ordered association list of properties. -/
abbrev FieldMap := List (String × Value)

/-- Property read `m[f]`: first entry wins, `undefined` when absent. -/
def jsGet : FieldMap → String → Value
  | [], _ => .undef
  | (k, v) :: rest, f => if k = f then v else jsGet rest f

/-- First-match lookup returning `none` when the key is absent. -/
def lookupF (f : String) : FieldMap → Option Value
  | [] => none
  | (k, v) :: rest => if k = f then some v else lookupF f rest

/-- Does the object own a property named `f`? -/
def hasKey (f : String) : FieldMap → Bool
  | [] => false
  | (k, _) :: rest => k = f || hasKey f rest

/-- Property write `m[k] = v`: overwrite in place, else append (JS keeps the
original insertion position of an existing key). -/
def jsSet : FieldMap → String → Value → FieldMap
  | [], k, v => [(k, v)]
  | (k', v') :: rest, k, v =>
      if k' = k then (k, v) :: rest else (k', v') :: jsSet rest k v

/-- The object's keys are pairwise distinct (always true of a real JS object;
our list encoding needs it as a side condition). -/
abbrev keysNodup (m : FieldMap) : Prop := (m.map Prod.fst).Nodup

/-- No property stores a literal `undefined` (true of anything parsed from
JSON, hence of every input lead). -/
abbrev noUndef (m : FieldMap) : Prop := ∀ kv ∈ m, kv.2 ≠ Value.undef

/-- JS template-literal stringification of the values we model. -/
def valToString : Value → String
  | .str s => s
  | .num n => toString n
  | .bool b => if b then "true" else "false"
  | .null => "null"
  | .undef => "undefined"

/-- `Array.prototype.findIndex`, as an `Option Nat` (first match wins). -/
def findIdxF (p : α → Bool) : List α → Option Nat
  | [] => none
  | a :: rest => if p a then some 0 else (findIdxF p rest).map (· + 1)

/-- One reconciliation record: the current data object paired with the list of
change objects, most recent first (`records[i]` in the source). -/
abbrev Record := FieldMap × List FieldMap

/-- The duplicate test from `records.findIndex(([record]) =>
lead._id === record._id || lead.email === record.email)`.  Strict equality on
our primitive values coincides with decidable equality on `Value`. -/
def matchKeys (lead record : FieldMap) : Bool :=
  jsGet lead "_id" == jsGet record "_id" ||
  jsGet lead "email" == jsGet record "email"

/-- The JS comparison `incoming >= original` on `getTime()` results, where
`none` models `NaN`: any comparison against `NaN` is false. -/
def dateGe : Option Int → Option Int → Bool
  | some a, some b => b ≤ a
  | _, _ => false

/-- `newData = { ...lead, _id: dupedId ? original._id : lead._id,
email: dupedEmail ? original.email : lead.email }`. -/
def mergeData (original lead : FieldMap) : FieldMap :=
  let dupedId := jsGet original "_id" == jsGet lead "_id"
  let dupedEmail := jsGet original "email" == jsGet lead "email"
  jsSet
    (jsSet lead "_id" (if dupedId then jsGet original "_id" else jsGet lead "_id"))
    "email" (if dupedEmail then jsGet original "email" else jsGet lead "email")

/-- The change object: `Object.entries(original).reduce(...)` records
`key -> original value` for every entry of `original` whose value differs from
`newData[key]`. -/
def changedOf (original newData : FieldMap) : FieldMap :=
  original.foldl
    (fun changed kv =>
      if jsGet newData kv.1 == kv.2 then changed else jsSet changed kv.1 kv.2)
    []

/-- One iteration of the `leads.forEach` loop, acting on the accumulated
`records` array. -/
def reconcileStep (parse : Value → Option Int) (records : List Record)
    (lead : FieldMap) : List Record :=
  match findIdxF (fun r => matchKeys lead r.1) records with
  | some i =>
      let original := (records.getD i ([], [])).1
      let changes := (records.getD i ([], [])).2
      if dateGe (parse (jsGet lead "entryDate")) (parse (jsGet original "entryDate")) then
        let newData := mergeData original lead
        records.set i (newData, changedOf original newData :: changes)
      else records
  | none => records ++ [(lead, [])]

/-- The whole deduplication pass over the input leads. -/
def reconcile (parse : Value → Option Int) (leads : List FieldMap) : List Record :=
  leads.foldl (reconcileStep parse) []

/-!  The changelog renderer (`writeLog`). -/

/-- One inner step of the mutation loop: the template-literal assignment
`data[changedProp] = changedVal ++ " ==> " ++ data[changedProp]`. -/
def applyChangeEntry (data : FieldMap) (kv : String × Value) : FieldMap :=
  jsSet data kv.1
    (.str (valToString kv.2 ++ " ==> " ++ valToString (jsGet data kv.1)))

/-- Applying one change object to `data` (`Object.entries(change).forEach`). -/
def applyChange (data c : FieldMap) : FieldMap := c.foldl applyChangeEntry data

/-- The fully mutated `data` after `changes.forEach(...)`: every recorded
previous value has been prepended with an ` ==> ` marker. -/
def displayData (data : FieldMap) (changes : List FieldMap) : FieldMap :=
  changes.foldl applyChange data

/-- `Object.getOwnPropertyNames(data).sort(byLengthDesc)[0].length`: the
longest property-name length; `none` models the TypeError thrown when `data`
has no properties (indexing `[0]` into an empty array gives `undefined`). -/
def longestProp (data : FieldMap) : Option Nat :=
  match data with
  | [] => none
  | _ => some ((data.map (fun kv => kv.1.length)).foldl max 0)

/-- `String.prototype.padStart(w)` with spaces. -/
def padStart (s : String) (w : Nat) : String :=
  String.mk (List.replicate (w - s.length) ' ') ++ s

/-- The log block for a single record: mutate the data, compute the padding
width, then emit one `key: value` line per property.  `none` models the
record with an empty field map blowing up the renderer. -/
def renderRecord (r : Record) : Option String :=
  let data := displayData r.1 r.2
  match longestProp data with
  | none => none
  | some w =>
      some (data.foldl
        (fun acc kv => acc ++ padStart kv.1 w ++ ": " ++ valToString kv.2 ++ "\n")
        "")

/-- The whole `writeLog` string: record blocks separated by one blank line
(`if (!!index) fullLog += '\n'`), `none` once any record fails to render. -/
def renderAll (records : List Record) : Option String :=
  (records.foldl
    (fun acc r =>
      match acc, renderRecord r with
      | some p, some b => some (p.1 ++ (if p.2 then "\n" else "") ++ b, true)
      | _, _ => none)
    (some ("", false))).map Prod.fst

/-- The `records` array as `writeLog` leaves it: each record's data object has
been mutated into its display form (the change lists are untouched). -/
def postRender (records : List Record) : List Record :=
  records.map (fun r => (displayData r.1 r.2, r.2))

/-!  Specification-side helpers (used to state the claims, not taken from the
source). -/

/-- The historical values recorded for field `f` across a change list, in
storage order (most recent merge first). -/
def hist (f : String) (changes : List FieldMap) : List Value :=
  changes.filterMap (lookupF f)

/-- Joining a list of strings with the visible ` ==> ` transition marker. -/
def chainStr : List String → String
  | [] => ""
  | [a] => a
  | a :: b :: rest => a ++ " ==> " ++ chainStr (b :: rest)

/-- Walking a record's change list front-to-back (most recent merge first) and
applying each change object as a reverse-delta (`map[k] := previousValue`). -/
def applyRev (data c : FieldMap) : FieldMap :=
  c.foldl (fun d kv => jsSet d kv.1 kv.2) data

/-- The reverse-delta reconstruction of a record's pre-merge state. -/
def reconstruct (r : Record) : FieldMap := r.2.foldl applyRev r.1

/-- A concrete stand-in for `new Date(v).getTime()` used by the concrete
counterexample runs: three parsable date strings, everything else `NaN`. -/
def dateP : Value → Option Int
  | .str "d1" => some 1
  | .str "d2" => some 2
  | .str "d3" => some 3
  | _ => none

/-- The last value an entry list writes for key `f` (later entries of the same
change object overwrite earlier ones); `none` when `f` is untouched. -/
def lastVal (f : String) (c : FieldMap) : Option Value :=
  c.foldl (fun acc kv => if kv.1 = f then some kv.2 else acc) none

/-- Across a whole change list, the value field `f` is left with by the
reverse-delta walk, ignoring the starting map: the change object applied last
(the oldest one, at the back of the list) wins.  `none` when no change object
touches `f`. -/
def histTop (f : String) (cs : List FieldMap) : Option Value :=
  cs.foldl (fun acc c => match lastVal f c with | some v => some v | none => acc) none

/-!  Concrete input data reused by several counterexample runs.  `exL1`
and `exL3` share an `_id`, `exL2` and `exL3` share an `email`. -/

def exL1 : FieldMap := [("_id", .num 1), ("email", .str "a"), ("entryDate", .str "d1")]

def exL2 : FieldMap := [("_id", .num 2), ("email", .str "b"), ("entryDate", .str "d1")]

def exL3 : FieldMap := [("_id", .num 1), ("email", .str "b"), ("entryDate", .str "d2")]

/-- A two-field lead; `exM1` below matches it on `_id` and brings a new
`name` field with a later date. -/
def exM0 : FieldMap := [("_id", .num 1), ("entryDate", .str "d1")]

def exM1 : FieldMap := [("_id", .num 1), ("entryDate", .str "d2"), ("name", .str "Bob")]

/-!  Basic lemmas about the JS-object operations. -/

theorem jsGet_jsSet (m : FieldMap) (k : String) (v : Value) (f : String) :
    jsGet (jsSet m k v) f = if f = k then v else jsGet m f := by
  induction m with
  | nil =>
      rcases eq_or_ne f k with h | h
      · subst h; simp [jsSet, jsGet]
      · simp [jsSet, jsGet, h, Ne.symm h]
  | cons hd tl ih =>
      obtain ⟨k', v'⟩ := hd
      by_cases hk : k' = k
      · subst hk
        rcases eq_or_ne f k' with h | h
        · subst h; simp [jsSet, jsGet]
        · simp [jsSet, jsGet, h, Ne.symm h]
      · rcases eq_or_ne k' f with h | h
        · subst h
          simp [jsSet, jsGet, hk]
        · simp [jsSet, jsGet, hk, h, ih]

theorem jsGet_eq_getD_lookupF (f : String) (m : FieldMap) :
    jsGet m f = (lookupF f m).getD .undef := by
  induction m with
  | nil => simp [jsGet, lookupF]
  | cons hd tl ih =>
      obtain ⟨k, v⟩ := hd
      by_cases hk : k = f <;> simp [jsGet, lookupF, hk, ih]

theorem lookupF_eq_none_of_hasKey_false {f : String} {m : FieldMap}
    (h : hasKey f m = false) : lookupF f m = none := by
  induction m with
  | nil => rfl
  | cons hd tl ih =>
      obtain ⟨k, v⟩ := hd
      simp only [hasKey, Bool.or_eq_false_iff, decide_eq_false_iff_not] at h
      simp [lookupF, h.1, ih h.2]

theorem jsGet_eq_undef_of_hasKey_false {f : String} {m : FieldMap}
    (h : hasKey f m = false) : jsGet m f = .undef := by
  rw [jsGet_eq_getD_lookupF, lookupF_eq_none_of_hasKey_false h]; rfl

theorem lookupF_isSome_of_hasKey {f : String} {m : FieldMap}
    (h : hasKey f m = true) : (lookupF f m).isSome := by
  induction m with
  | nil => simp [hasKey] at h
  | cons hd tl ih =>
      obtain ⟨k, v⟩ := hd
      by_cases hk : k = f
      · simp [lookupF, hk]
      · simp only [hasKey, Bool.or_eq_true, decide_eq_true_eq] at h
        rcases h with h | h
        · exact absurd h hk
        · simp [lookupF, hk, ih h]

theorem jsGet_of_lookupF {f : String} {m : FieldMap} {v : Value}
    (h : lookupF f m = some v) : jsGet m f = v := by
  rw [jsGet_eq_getD_lookupF, h]; rfl

theorem hasKey_iff_mem_keys (f : String) (m : FieldMap) :
    hasKey f m = true ↔ f ∈ m.map Prod.fst := by
  induction m with
  | nil => simp [hasKey]
  | cons hd tl ih =>
      obtain ⟨k, v⟩ := hd
      simp only [hasKey, Bool.or_eq_true, decide_eq_true_eq, ih, List.map_cons,
        List.mem_cons]
      exact or_congr eq_comm Iff.rfl

theorem lookupF_none_of_not_mem_keys {f : String} {m : FieldMap}
    (h : f ∉ m.map Prod.fst) : lookupF f m = none := by
  induction m with
  | nil => rfl
  | cons hd tl ih =>
      simp only [List.map_cons, List.mem_cons, not_or] at h
      have h1 : ¬ hd.1 = f := fun hh => h.1 hh.symm
      rw [show hd = (hd.1, hd.2) from rfl]
      simp [lookupF, h1, ih h.2]

theorem lookupF_mem_keys {f : String} {m : FieldMap} {v : Value}
    (h : lookupF f m = some v) : f ∈ m.map Prod.fst := by
  induction m with
  | nil => simp [lookupF] at h
  | cons hd tl ih =>
      by_cases hk : hd.1 = f
      · simp [hk]
      · rw [show hd = (hd.1, hd.2) from rfl] at h
        simp only [lookupF, if_neg hk] at h
        simp [ih h]

theorem jsSet_eq_append_of_hasKey_false {k : String} {m : FieldMap}
    (h : hasKey k m = false) (v : Value) : jsSet m k v = m ++ [(k, v)] := by
  induction m with
  | nil => rfl
  | cons hd tl ih =>
      obtain ⟨k', v'⟩ := hd
      simp only [hasKey, Bool.or_eq_false_iff, decide_eq_false_iff_not] at h
      simp [jsSet, h.1, ih h.2]

theorem keys_jsSet (m : FieldMap) (k : String) (v : Value) :
    (jsSet m k v).map Prod.fst =
      if hasKey k m then m.map Prod.fst else m.map Prod.fst ++ [k] := by
  induction m with
  | nil => simp [jsSet, hasKey]
  | cons hd tl ih =>
      obtain ⟨k', v'⟩ := hd
      by_cases hk : k' = k
      · subst hk; simp [jsSet, hasKey]
      · simp only [jsSet, if_neg hk, hasKey, List.map_cons, ih]
        by_cases htl : hasKey k tl = true <;>
          simp [htl, hk, fun h : (k : String) = k' => hk h.symm]

theorem keysNodup_jsSet {m : FieldMap} (h : keysNodup m) (k : String) (v : Value) :
    keysNodup (jsSet m k v) := by
  unfold keysNodup at *
  rw [keys_jsSet]
  by_cases hk : hasKey k m = true
  · simp [hk, h]
  · simp only [Bool.not_eq_true] at hk
    simp only [hk, Bool.false_eq_true, if_false]
    refine List.Nodup.append h (List.nodup_singleton k) ?_
    intro a ha hb
    rcases List.mem_singleton.mp hb with rfl
    exact absurd ((hasKey_iff_mem_keys a m).mpr ha) (by simp [hk])

/-!  Lemmas about `findIdxF`. -/

theorem findIdxF_isSome_of_mem {p : α → Bool} {l : List α} {a : α}
    (ha : a ∈ l) (hp : p a = true) : (findIdxF p l).isSome := by
  induction l with
  | nil => cases ha
  | cons b tl ih =>
      by_cases hb : p b
      · simp [findIdxF, hb]
      · rcases List.mem_cons.mp ha with rfl | hmem
        · exact absurd hp hb
        · rcases Option.isSome_iff_exists.mp (ih hmem) with ⟨j, hj⟩
          simp [findIdxF, hb, hj]

theorem findIdxF_some_spec {p : α → Bool} {l : List α} {i : Nat}
    (h : findIdxF p l = some i) (d : α) :
    i < l.length ∧ p (l.getD i d) = true := by
  induction l generalizing i with
  | nil => cases h
  | cons b tl ih =>
      by_cases hb : p b
      · simp only [findIdxF, if_pos hb] at h
        cases h
        simpa [List.getD] using hb
      · simp only [findIdxF, if_neg hb] at h
        cases hfi : findIdxF p tl with
        | none => rw [hfi] at h; cases h
        | some j =>
            rw [hfi, Option.map_some'] at h
            obtain rfl : j + 1 = i := Option.some.inj h
            obtain ⟨h1, h2⟩ := ih hfi
            exact ⟨by simpa using h1, by simpa [List.getD] using h2⟩

/-!  The merged data object. -/

/-- Because the duplicate flags are computed with strict equality, the merged
object's property reads are exactly the incoming lead's: when a key was
duplicated, "keeping the original value" is keeping a value strictly equal to
the incoming one. -/
theorem jsGet_mergeData (original lead : FieldMap) (f : String) :
    jsGet (mergeData original lead) f = jsGet lead f := by
  unfold mergeData
  simp only [jsGet_jsSet]
  by_cases he : f = "email"
  · subst he
    simp only [if_pos rfl]
    by_cases hd : jsGet original "email" = jsGet lead "email" <;>
      simp [hd, beq_iff_eq]
  · simp only [if_neg he]
    by_cases hi : f = "_id"
    · subst hi
      simp only [if_pos rfl]
      by_cases hd : jsGet original "_id" = jsGet lead "_id" <;>
        simp [hd, beq_iff_eq]
    · simp [if_neg hi]

/-!  C3. -/

/-- C3: in an accepted merge, an identity key on which the existing record and
the incoming lead agree (i.e. a key that produced the match) keeps the
existing record's value in the merged map, while a key on which they differ
takes the incoming lead's value — for both `_id` and `email`, and when both
agree both are preserved. -/
theorem c3_matched_key_preserved (original lead : FieldMap) :
    (jsGet original "_id" = jsGet lead "_id" →
      jsGet (mergeData original lead) "_id" = jsGet original "_id") ∧
    (jsGet original "_id" ≠ jsGet lead "_id" →
      jsGet (mergeData original lead) "_id" = jsGet lead "_id") ∧
    (jsGet original "email" = jsGet lead "email" →
      jsGet (mergeData original lead) "email" = jsGet original "email") ∧
    (jsGet original "email" ≠ jsGet lead "email" →
      jsGet (mergeData original lead) "email" = jsGet lead "email") := by
  refine ⟨?_, ?_, ?_, ?_⟩ <;> intro h <;> simp [jsGet_mergeData, h]

/-- Witness for C3: a merge that matched on `_id` but not on `email` keeps the
original `_id` and adopts the incoming `email`. -/
theorem c3_matched_key_preserved_witness :
    jsGet (mergeData [("_id", .num 1), ("email", .str "a")]
        [("_id", .num 1), ("email", .str "b")]) "_id" =
      jsGet [(("_id" : String), Value.num 1), ("email", .str "a")] "_id" ∧
    jsGet (mergeData [("_id", .num 1), ("email", .str "a")]
        [("_id", .num 1), ("email", .str "b")]) "email" =
      jsGet [(("_id" : String), Value.num 1), ("email", .str "b")] "email" :=
  ⟨(c3_matched_key_preserved _ _).1 (by decide),
   (c3_matched_key_preserved _ _).2.2.2 (by decide)⟩

/-!  C2. -/

/-- C2: when the incoming lead matches the record at index `i` and both entry
dates parse, a strictly earlier incoming date leaves the record array
completely unchanged (the lead is discarded, no change object is recorded),
while an incoming date greater than or equal to the current one replaces the
record's data with the merged incoming data (whose property reads all equal
the incoming lead's) and pushes the change object onto the front of the
record's change list. -/
theorem c2_recency_policy (parse : Value → Option Int) (s : List Record)
    (lead P : FieldMap) (cs : List FieldMap) (i : Nat) (ti tp : Int)
    (hfind : findIdxF (fun r => matchKeys lead r.1) s = some i)
    (hget : s.getD i ([], []) = (P, cs))
    (hti : parse (jsGet lead "entryDate") = some ti)
    (htp : parse (jsGet P "entryDate") = some tp) :
    (ti < tp → reconcileStep parse s lead = s) ∧
    (tp ≤ ti →
      reconcileStep parse s lead =
        s.set i (mergeData P lead, changedOf P (mergeData P lead) :: cs) ∧
      ∀ f, jsGet (mergeData P lead) f = jsGet lead f) := by
  constructor
  · intro hlt
    unfold reconcileStep
    rw [hfind]
    dsimp only
    rw [hget]
    dsimp only
    rw [hti, htp]
    simp [dateGe, not_le.mpr hlt]
  · intro hge
    refine ⟨?_, fun f => jsGet_mergeData P lead f⟩
    unfold reconcileStep
    rw [hfind]
    dsimp only
    rw [hget]
    dsimp only
    rw [hti, htp]
    simp [dateGe, hge]

/-- Witness for C2: with the matched record dated `d2`, an incoming `d1` lead
is discarded wholesale, and an incoming `d3` lead replaces the record. -/
theorem c2_recency_policy_witness :
    reconcileStep dateP [(exL3, [])] exL1 = [(exL3, [])] ∧
    reconcileStep dateP [(exL3, [])]
        [("_id", .num 1), ("email", .str "c"), ("entryDate", .str "d3")] =
      [(mergeData exL3 [("_id", .num 1), ("email", .str "c"), ("entryDate", .str "d3")],
        [changedOf exL3
          (mergeData exL3 [("_id", .num 1), ("email", .str "c"), ("entryDate", .str "d3")])])] := by
  constructor
  · exact (c2_recency_policy dateP [(exL3, [])] exL1 exL3 [] 0 1 2
      (by decide) rfl rfl rfl).1 (by decide)
  · exact ((c2_recency_policy dateP [(exL3, [])]
      [("_id", .num 1), ("email", .str "c"), ("entryDate", .str "d3")] exL3 [] 0 3 2
      (by decide) rfl rfl rfl).2 (by decide)).1

/-!  C5. -/

/-- C5: an incoming lead that matches an existing record but whose `entryDate`
does not parse (`NaN` timestamp) always loses the comparison: the record array
is left completely unchanged, and (the step being a total function) no error
is raised. -/
theorem c5_unparsable_loses (parse : Value → Option Int) (s : List Record)
    (lead : FieldMap) (i : Nat)
    (hfind : findIdxF (fun r => matchKeys lead r.1) s = some i)
    (hnone : parse (jsGet lead "entryDate") = none) :
    reconcileStep parse s lead = s := by
  unfold reconcileStep
  rw [hfind]
  dsimp only
  rw [hnone]
  have h : dateGe none (parse (jsGet (s.getD i ([], [])).1 "entryDate")) = false := by
    cases parse (jsGet (s.getD i ([], [])).1 "entryDate") <;> rfl
  rw [h]
  simp

/-- Witness for C5: a matching lead with an unparsable date string is
discarded. -/
theorem c5_unparsable_loses_witness :
    reconcileStep dateP [(exL1, [])]
        [("_id", .num 1), ("email", .str "z"), ("entryDate", .str "oops")] =
      [(exL1, [])] :=
  c5_unparsable_loses dateP [(exL1, [])]
    [("_id", .num 1), ("email", .str "z"), ("entryDate", .str "oops")] 0
    (by decide) rfl

/-!  C1. -/

/-- C1 counterexample: after processing `exL1`, `exL2`, `exL3`, the merge of
`exL3` into the first record (matched on `_id`) adopts the incoming `email`
`"b"`, which the second record also carries — the final result set holds two
records sharing the identity-key value `"b"` for `email`, so the claimed
invariant fails. -/
theorem c1_counterexample :
    (reconcile dateP [exL1, exL2, exL3]).length = 2 ∧
    jsGet ((reconcile dateP [exL1, exL2, exL3]).getD 0 ([], [])).1 "email" =
      Value.str "b" ∧
    jsGet ((reconcile dateP [exL1, exL2, exL3]).getD 1 ([], [])).1 "email" =
      Value.str "b" := by
  refine ⟨rfl, rfl, rfl⟩

/-- C1 amended: at the moment a record would be created, no side-by-side
duplicate is ever left — an incoming lead sharing an identity-key value with
any existing record is merged into (or discarded against) an existing record
and never appended as a new one, so the result-set size does not grow.
Accepted merges may later overwrite a record's non-matched key and thereby
recreate a shared key value between two existing records (see the
counterexample), so the invariant only holds at creation time. -/
theorem c1_amended_no_new_record_on_match (parse : Value → Option Int)
    (s : List Record) (lead : FieldMap) (r : Record)
    (hr : r ∈ s) (hm : matchKeys lead r.1 = true) :
    (reconcileStep parse s lead).length = s.length := by
  have hsome := findIdxF_isSome_of_mem (p := fun x => matchKeys lead x.1) hr hm
  cases hfi : findIdxF (fun x => matchKeys lead x.1) s with
  | none => rw [hfi] at hsome; cases hsome
  | some i =>
      unfold reconcileStep
      rw [hfi]
      dsimp only
      split
      · simp
      · rfl

/-- Witness for C1 amended: a lead matching the sole existing record does not
grow the result set. -/
theorem c1_amended_no_new_record_on_match_witness :
    (reconcileStep dateP [(exL1, [])] exL3).length = 1 :=
  (c1_amended_no_new_record_on_match dateP [(exL1, [])] exL3 (exL1, [])
    (List.mem_singleton.mpr rfl) (by decide)).trans rfl

/-!  C10. -/

/-- C10: the duplicate test compares the literal `_id` and `email` properties
with strict equality, and an absent property reads as `undefined`, which is
strictly equal to `undefined`: any incoming lead lacking `_id` matches any
existing record lacking `_id`.  Concretely, two leads with no `_id`, differing
in every field they own — including a field literally named `id` — are merged
into a single record. -/
theorem c10_absent_id_matches (lead record : FieldMap)
    (h1 : hasKey "_id" lead = false) (h2 : hasKey "_id" record = false) :
    matchKeys lead record = true ∧
    (reconcile dateP
      [[("id", .num 1), ("email", .str "a"), ("entryDate", .str "d1")],
       [("id", .num 2), ("email", .str "b"), ("entryDate", .str "d2")]]).length = 1 := by
  constructor
  · unfold matchKeys
    rw [jsGet_eq_undef_of_hasKey_false h1, jsGet_eq_undef_of_hasKey_false h2]
    simp
  · rfl

/-- Witness for C10 at two concrete `_id`-less leads. -/
theorem c10_absent_id_matches_witness :
    matchKeys [(("id" : String), Value.num 2), ("email", .str "b")]
        [(("id" : String), Value.num 1), ("email", .str "a")] = true ∧
    (reconcile dateP
      [[("id", .num 1), ("email", .str "a"), ("entryDate", .str "d1")],
       [("id", .num 2), ("email", .str "b"), ("entryDate", .str "d2")]]).length = 1 :=
  c10_absent_id_matches _ _ (by decide) (by decide)

/-!  C8. -/

/-- C8: contrary to the claim, the renderer's padding-width computation is not
total — on a record whose field map is empty,
`Object.getOwnPropertyNames(data).sort(...)[0]` is `undefined` and reading its
`.length` throws a TypeError, modelled here by `none`: the record produces no
block and the whole log rendering fails. -/
theorem c8_empty_record_render_fails :
    longestProp [] = none ∧ renderRecord ([], []) = none ∧
      renderAll [([], [])] = none :=
  ⟨rfl, rfl, rfl⟩

/-!  C4: the change object. -/

theorem hasKey_append (f : String) (m1 m2 : FieldMap) :
    hasKey f (m1 ++ m2) = (hasKey f m1 || hasKey f m2) := by
  induction m1 with
  | nil => simp [hasKey]
  | cons hd tl ih =>
      obtain ⟨k, v⟩ := hd
      simp [hasKey, ih, Bool.or_assoc]

theorem keysNodup_cons {hd : String × Value} {tl : FieldMap}
    (h : keysNodup (hd :: tl)) : hd.1 ∉ tl.map Prod.fst ∧ keysNodup tl := by
  unfold keysNodup at h
  rw [List.map_cons, List.nodup_cons] at h
  exact h

/-- With distinct keys, the accumulator-threading `reduce` that builds the
change object is just a filter of the original object's entries. -/
theorem changedOf_foldl_eq (N P acc : FieldMap) (hnd : keysNodup P)
    (hdisj : ∀ k ∈ P.map Prod.fst, hasKey k acc = false) :
    P.foldl
      (fun changed kv =>
        if jsGet N kv.1 == kv.2 then changed else jsSet changed kv.1 kv.2) acc =
    acc ++ P.filter (fun kv => !(jsGet N kv.1 == kv.2)) := by
  induction P generalizing acc with
  | nil => simp
  | cons hd tl ih =>
      obtain ⟨hmem, hnd'⟩ := keysNodup_cons hnd
      have hmemcons : ∀ k ∈ tl.map Prod.fst, k ∈ (hd :: tl).map Prod.fst := by
        intro k hk
        rw [List.map_cons]
        exact List.mem_cons_of_mem _ hk
      by_cases hc : jsGet N hd.1 == hd.2
      · rw [List.foldl_cons, if_pos hc,
          ih acc hnd' (fun k hk => hdisj k (hmemcons k hk))]
        simp [List.filter_cons, hc]
      · rw [List.foldl_cons, if_neg hc]
        have hacc : hasKey hd.1 acc = false := hdisj hd.1 (by simp)
        have hdisj2 : ∀ k ∈ tl.map Prod.fst,
            hasKey k (acc ++ [(hd.1, hd.2)]) = false := by
          intro k hk
          rw [hasKey_append]
          have hk1 : hasKey k acc = false := hdisj k (hmemcons k hk)
          have hk2 : hasKey k [(hd.1, hd.2)] = false := by
            have hne : ¬ hd.1 = k := fun hh => hmem (by rw [hh]; exact hk)
            simp [hasKey, hne]
          simp [hk1, hk2]
        rw [jsSet_eq_append_of_hasKey_false hacc,
          ih (acc ++ [(hd.1, hd.2)]) hnd' hdisj2]
        simp [List.filter_cons, hc]

theorem changedOf_eq_filter {P : FieldMap} (hnd : keysNodup P) (N : FieldMap) :
    changedOf P N = P.filter (fun kv => !(jsGet N kv.1 == kv.2)) := by
  unfold changedOf
  rw [changedOf_foldl_eq N P [] hnd (fun k _ => rfl)]
  simp

theorem not_mem_keys_filter {f : String} {tl : FieldMap}
    (pred : String × Value → Bool) (h : f ∉ tl.map Prod.fst) :
    f ∉ (tl.filter pred).map Prod.fst := by
  intro hmem
  rcases List.mem_map.mp hmem with ⟨kv, hkv, rfl⟩
  exact h (List.mem_map.mpr ⟨kv, (List.mem_filter.mp hkv).1, rfl⟩)

/-- With distinct keys, looking a field up in a filtered object finds the
original value exactly when the entry survives the filter. -/
theorem lookupF_filter {P : FieldMap} (hnd : keysNodup P)
    (pred : String × Value → Bool) (f : String) :
    lookupF f (P.filter pred) =
      match lookupF f P with
      | some v => if pred (f, v) then some v else none
      | none => none := by
  induction P with
  | nil => rfl
  | cons hd tl ih =>
      obtain ⟨hmem, hnd'⟩ := keysNodup_cons hnd
      by_cases hk : hd.1 = f
      · subst hk
        by_cases hp : pred hd
        · rw [show hd = (hd.1, hd.2) from rfl]
          simp [List.filter_cons, hp, lookupF]
        · have : lookupF hd.1 (tl.filter pred) = none :=
            lookupF_none_of_not_mem_keys (not_mem_keys_filter pred hmem)
          rw [show hd = (hd.1, hd.2) from rfl]
          simp [List.filter_cons, hp, lookupF, this]
      · by_cases hp : pred hd
        · rw [show hd = (hd.1, hd.2) from rfl]
          simp [List.filter_cons, hp, lookupF, hk, ih hnd']
        · rw [show hd = (hd.1, hd.2) from rfl]
          simp [List.filter_cons, hp, lookupF, hk, ih hnd']

/-- C4: in an accepted merge, the change object pushed onto the front of the
record's change list maps exactly those field names that occur in the previous
current map with a value differing from the new merged map's value for that
name, each to its previous value; names present only in the new map are never
recorded. -/
theorem c4_change_set (parse : Value → Option Int) (s : List Record)
    (lead P : FieldMap) (cs : List FieldMap) (i : Nat)
    (hfind : findIdxF (fun r => matchKeys lead r.1) s = some i)
    (hget : s.getD i ([], []) = (P, cs))
    (hacc : dateGe (parse (jsGet lead "entryDate"))
              (parse (jsGet P "entryDate")) = true)
    (hnd : keysNodup P) :
    reconcileStep parse s lead =
      s.set i (mergeData P lead, changedOf P (mergeData P lead) :: cs) ∧
    ∀ f v, lookupF f (changedOf P (mergeData P lead)) = some v ↔
      (lookupF f P = some v ∧ jsGet (mergeData P lead) f ≠ v) := by
  constructor
  · unfold reconcileStep
    rw [hfind]
    dsimp only
    rw [hget]
    dsimp only
    rw [hacc]
    simp
  · intro f v
    rw [changedOf_eq_filter hnd, lookupF_filter hnd]
    cases hl : lookupF f P with
    | none => simp
    | some w =>
        dsimp only
        by_cases hne : jsGet (mergeData P lead) f = w
        · rw [if_neg (by simp [hne])]
          constructor
          · intro hcontra; cases hcontra
          · rintro ⟨hv, hne2⟩
            have hv' : w = v := Option.some.inj hv
            subst hv'
            exact absurd hne hne2
        · rw [if_pos (by simp [hne])]
          constructor
          · intro hv
            have hv' : w = v := Option.some.inj hv
            subst hv'
            exact ⟨rfl, hne⟩
          · rintro ⟨hv, _⟩
            exact hv

/-- Witness for C4: merging `exL3` into `exL1` records exactly the previous
`email` and `entryDate` values, at the front of the change list. -/
theorem c4_change_set_witness :
    reconcileStep dateP [(exL1, [])] exL3 =
      [(mergeData exL1 exL3, [changedOf exL1 (mergeData exL1 exL3)])] ∧
    lookupF "email" (changedOf exL1 (mergeData exL1 exL3)) =
      some (Value.str "a") := by
  have h := c4_change_set dateP [(exL1, [])] exL3 exL1 [] 0
    (by decide) rfl (by decide) (by decide)
  exact ⟨h.1, (h.2 "email" (.str "a")).mpr ⟨by decide, by decide⟩⟩

/-!  The renderer's value chains (C6, C7). -/

/-- A change object that does not mention `f` leaves `f`'s displayed value
untouched. -/
theorem jsGet_applyChange_entries_of_none {f : String} {c : FieldMap}
    (h : lookupF f c = none) (d : FieldMap) :
    jsGet (List.foldl applyChangeEntry d c) f = jsGet d f := by
  induction c generalizing d with
  | nil => rfl
  | cons kv rest ih =>
      obtain ⟨k, v⟩ := kv
      by_cases hk : k = f
      · simp [lookupF, hk] at h
      · simp only [lookupF, if_neg hk] at h
        rw [List.foldl_cons, ih h]
        unfold applyChangeEntry
        rw [jsGet_jsSet, if_neg (fun hh : f = k => hk hh.symm)]

/-- Applying one change object with distinct keys: field `f` gets the recorded
previous value prepended with the transition marker exactly when the change
object mentions `f`. -/
theorem jsGet_applyChange {c : FieldMap} (hnd : keysNodup c) (d : FieldMap)
    (f : String) :
    jsGet (applyChange d c) f =
      match lookupF f c with
      | some v => .str (valToString v ++ " ==> " ++ valToString (jsGet d f))
      | none => jsGet d f := by
  revert hnd
  induction c generalizing d with
  | nil => intro _; rfl
  | cons kv rest ih =>
      intro hnd
      obtain ⟨k, v⟩ := kv
      obtain ⟨hmem, hnd'⟩ := keysNodup_cons hnd
      by_cases hk : k = f
      · subst hk
        have hrest : lookupF k rest = none := lookupF_none_of_not_mem_keys hmem
        unfold applyChange
        rw [List.foldl_cons, jsGet_applyChange_entries_of_none hrest]
        unfold applyChangeEntry
        rw [jsGet_jsSet]
        simp [lookupF]
      · unfold applyChange
        rw [List.foldl_cons]
        have hstep := ih (applyChangeEntry d (k, v)) hnd'
        unfold applyChange at hstep
        rw [hstep]
        have hget : jsGet (applyChangeEntry d (k, v)) f = jsGet d f := by
          unfold applyChangeEntry
          rw [jsGet_jsSet, if_neg (fun hh : f = k => hk hh.symm)]
        rw [hget]
        simp only [lookupF, if_neg hk]

/-- If no change object in the list mentions `f`, the display map agrees with
the data map at `f`. -/
theorem jsGet_displayData_of_no_hist {f : String} {cs : List FieldMap}
    (h : hist f cs = []) (d : FieldMap) :
    jsGet (displayData d cs) f = jsGet d f := by
  induction cs generalizing d with
  | nil => rfl
  | cons c rest ih =>
      unfold hist at h
      rw [List.filterMap_cons] at h
      cases hc : lookupF f c with
      | none =>
          rw [hc] at h
          unfold displayData
          rw [List.foldl_cons]
          have h2 := ih h (applyChange d c)
          unfold displayData at h2
          rw [h2]
          unfold applyChange
          exact jsGet_applyChange_entries_of_none hc d
      | some v => rw [hc] at h; cases h

theorem chainStr_cons {l : List String} (h : l ≠ []) (a : String) :
    chainStr (a :: l) = a ++ " ==> " ++ chainStr l := by
  cases l with
  | nil => exact absurd rfl h
  | cons b rest => rfl

theorem chainStr_append_pair (xs : List String) (a b : String) :
    chainStr (xs ++ [a, b]) = chainStr (xs ++ [a ++ " ==> " ++ b]) := by
  induction xs with
  | nil => rfl
  | cons x xs ih =>
      rw [List.cons_append, List.cons_append,
        chainStr_cons (by simp) x, chainStr_cons (by simp) x, ih]

/-- The key fact behind the rendered chains: if at least one change object
mentions `f` (with distinct keys inside each change object), the displayed
value of `f` is the chain of its historical values read oldest-first (the
reverse of storage order), ending with the current value. -/
theorem displayData_chain {f : String} {cs : List FieldMap}
    (hnd : ∀ c ∈ cs, keysNodup c) (hh : hist f cs ≠ []) (d : FieldMap) :
    jsGet (displayData d cs) f =
      .str (chainStr (((hist f cs).reverse.map valToString) ++
        [valToString (jsGet d f)])) := by
  induction cs generalizing d with
  | nil => exact absurd rfl hh
  | cons c rest ih =>
      have hndc : keysNodup c := hnd c (by simp)
      have hndr : ∀ c' ∈ rest, keysNodup c' := fun c' hc' => hnd c' (by simp [hc'])
      unfold displayData
      rw [List.foldl_cons]
      cases hc : lookupF f c with
      | none =>
          have hhist : hist f (c :: rest) = hist f rest := by
            unfold hist
            rw [List.filterMap_cons, hc]
          rw [hhist] at hh ⊢
          have h1 : jsGet (applyChange d c) f = jsGet d f := by
            unfold applyChange
            exact jsGet_applyChange_entries_of_none hc d
          have h2 := ih hndr hh (applyChange d c)
          unfold displayData at h2
          rw [h2, h1]
      | some v =>
          have hhist : hist f (c :: rest) = v :: hist f rest := by
            unfold hist
            rw [List.filterMap_cons, hc]
          have h1 : jsGet (applyChange d c) f =
              .str (valToString v ++ " ==> " ++ valToString (jsGet d f)) := by
            rw [jsGet_applyChange hndc, hc]
          cases hrest : hist f rest with
          | nil =>
              have h2 := jsGet_displayData_of_no_hist hrest (applyChange d c)
              unfold displayData at h2
              rw [h2, h1, hhist, hrest]
              simp [chainStr, valToString]
          | cons w ws =>
              have hne : hist f rest ≠ [] := by rw [hrest]; simp
              have h2 := ih hndr hne (applyChange d c)
              unfold displayData at h2
              rw [h2, h1, hhist]
              rw [List.reverse_cons, List.map_append, List.map_cons, List.map_nil,
                List.append_assoc]
              rw [show ([valToString v] ++ [valToString (jsGet d f)] :
                    List String) = [valToString v, valToString (jsGet d f)] from rfl]
              rw [chainStr_append_pair]
              rfl

/-- C6: for every record and every field with at least one recorded change,
the displayed value (the one the report prints) is the chain of all
historical values joined by the transition marker in oldest-first order — the
change objects read in the reverse of their storage order — ending with the
record's current value. -/
theorem c6_chain_oldest_first (d : FieldMap) (cs : List FieldMap) (f : String)
    (hnd : ∀ c ∈ cs, keysNodup c) (hh : hist f cs ≠ []) :
    jsGet (displayData d cs) f =
      .str (chainStr (((hist f cs).reverse.map valToString) ++
        [valToString (jsGet d f)])) :=
  displayData_chain hnd hh d

/-- Witness for C6 on a record with two recorded changes for `name`. -/
theorem c6_chain_oldest_first_witness :
    jsGet (displayData [("name", Value.str "Al")]
        [[("name", Value.str "Mid")], [("name", Value.str "Old")]]) "name" =
      Value.str (chainStr
        (((hist "name" [[("name", Value.str "Mid")], [("name", Value.str "Old")]]).reverse.map
            valToString) ++
          [valToString (jsGet [("name", Value.str "Al")] "name")])) :=
  c6_chain_oldest_first _ _ _ (by decide) (by decide)

/-!  C7. -/

/-- C7 counterexample: `writeLog` mutates the records it renders: it installs
the chained display values into each record's current field map.  On a record
with one recorded change, the post-render state differs from the pre-render
state, and rendering that post-render state (what a second call to the
renderer would see) yields a different report string, so the renderer is not a
pure function of the record sequence. -/
theorem c7_counterexample :
    postRender [([("name", Value.str "Al")], [[("name", Value.str "Bo")]])] ≠
      [([("name", Value.str "Al")], [[("name", Value.str "Bo")]])] ∧
    renderAll (postRender [([("name", Value.str "Al")], [[("name", Value.str "Bo")]])]) ≠
      renderAll [([("name", Value.str "Al")], [[("name", Value.str "Bo")]])] := by
  constructor
  · decide
  · decide

theorem chainStr_length_ge {l : List String} (h : l ≠ []) (s : String) :
    s.length + 5 ≤ (chainStr (l ++ [s])).length := by
  induction l with
  | nil => exact absurd rfl h
  | cons x xs ih =>
      cases hxs : xs with
      | nil =>
          subst hxs
          show s.length + 5 ≤ (chainStr [x, s]).length
          have : chainStr [x, s] = x ++ " ==> " ++ s := rfl
          rw [this, String.length_append, String.length_append]
          have h5 : (" ==> " : String).length = 5 := rfl
          omega
      | cons y ys =>
          subst hxs
          rw [List.cons_append, chainStr_cons (by simp) x,
            String.length_append, String.length_append]
          have h5 : (" ==> " : String).length = 5 := rfl
          have := ih (by simp)
          omega

/-- C7 amended: the rendered report is a deterministic function of the record
sequence at the moment of the call, but rendering is not side-effect free: it
replaces each record's current field map by the display map, which changes
the value of every field that has at least one recorded change (the chained
string is strictly longer than the plain value), so a second rendering of the
same records produces a different report. -/
theorem c7_amended_render_mutates (d : FieldMap) (cs : List FieldMap)
    (f : String) (hnd : ∀ c ∈ cs, keysNodup c) (hh : hist f cs ≠ []) :
    jsGet (displayData d cs) f ≠ jsGet d f := by
  rw [displayData_chain hnd hh d]
  have hnil : ((hist f cs).reverse.map valToString) ≠ [] := by
    intro hn
    apply hh
    simpa using hn
  cases hv : jsGet d f with
  | str s =>
      intro hcontra
      have hchain : chainStr ((hist f cs).reverse.map valToString ++
          [valToString (Value.str s)]) = s := Value.str.inj hcontra
      have hlen := chainStr_length_ge hnil (valToString (Value.str s))
      rw [hchain] at hlen
      simp [valToString] at hlen
  | num n => simp
  | bool b => simp
  | null => simp
  | undef => simp

/-- Witness for C7 amended: rendering changes the stored `name` value. -/
theorem c7_amended_render_mutates_witness :
    jsGet (displayData [("name", Value.str "Al")] [[("name", Value.str "Bo")]])
        "name" ≠
      jsGet [(("name" : String), Value.str "Al")] "name" :=
  c7_amended_render_mutates _ _ _ (by decide) (by decide)

/-!  C9: the reverse-delta walk. -/

theorem lastVal_foldl_init (f : String) (l : FieldMap) (i : Option Value) :
    l.foldl (fun acc kv => if kv.1 = f then some kv.2 else acc) i =
      match lastVal f l with
      | some v => some v
      | none => i := by
  induction l generalizing i with
  | nil => rfl
  | cons kv rest ih =>
      unfold lastVal
      rw [List.foldl_cons, List.foldl_cons]
      by_cases hk : kv.1 = f
      · rw [if_pos hk, if_pos hk, ih (some kv.2)]
        cases lastVal f rest <;> rfl
      · rw [if_neg hk, if_neg hk]
        exact ih i

theorem lastVal_cons (f : String) (kv : String × Value) (rest : FieldMap) :
    lastVal f (kv :: rest) =
      match lastVal f rest with
      | some v => some v
      | none => if kv.1 = f then some kv.2 else none := by
  unfold lastVal
  rw [List.foldl_cons]
  exact lastVal_foldl_init f rest _

/-- Reading a field after one reverse-delta application: the last entry of the
change object for that field wins, otherwise the starting map shows through. -/
theorem jsGet_applyRev (m c : FieldMap) (f : String) :
    jsGet (applyRev m c) f =
      match lastVal f c with
      | some v => v
      | none => jsGet m f := by
  induction c generalizing m with
  | nil => rfl
  | cons kv rest ih =>
      unfold applyRev at *
      rw [List.foldl_cons]
      rw [ih (jsSet m kv.1 kv.2), jsGet_jsSet, lastVal_cons]
      cases hr : lastVal f rest with
      | some v => rfl
      | none =>
          dsimp only
          by_cases hk : kv.1 = f
          · rw [if_pos hk, if_pos hk.symm]
          · rw [if_neg hk, if_neg (fun hh : f = kv.1 => hk hh.symm)]

theorem histTop_foldl_init (f : String) (cs : List FieldMap) (i : Option Value) :
    cs.foldl
      (fun acc c => match lastVal f c with | some v => some v | none => acc) i =
      match histTop f cs with
      | some v => some v
      | none => i := by
  induction cs generalizing i with
  | nil => rfl
  | cons c rest ih =>
      unfold histTop
      rw [List.foldl_cons, List.foldl_cons]
      cases hc : lastVal f c with
      | some v =>
          rw [ih (some v)]
          cases histTop f rest <;> rfl
      | none => exact ih i

theorem histTop_cons (f : String) (c : FieldMap) (rest : List FieldMap) :
    histTop f (c :: rest) =
      match histTop f rest with
      | some v => some v
      | none => lastVal f c := by
  unfold histTop
  rw [List.foldl_cons]
  rw [show (match lastVal f c with
      | some v => some v
      | none => (none : Option Value)) = lastVal f c by cases lastVal f c <;> rfl]
  exact histTop_foldl_init f rest (lastVal f c)

/-- Reading a field after the whole reverse-delta walk: the oldest change
object touching the field wins, otherwise the current map shows through. -/
theorem jsGet_reconstruct (m : FieldMap) (cs : List FieldMap) (f : String) :
    jsGet (reconstruct (m, cs)) f =
      match histTop f cs with
      | some v => v
      | none => jsGet m f := by
  induction cs generalizing m with
  | nil => rfl
  | cons c rest ih =>
      unfold reconstruct at *
      rw [List.foldl_cons]
      dsimp only
      rw [ih (applyRev m c), jsGet_applyRev, histTop_cons]
      cases hr : histTop f rest with
      | some v => rfl
      | none => cases lastVal f c <;> rfl

theorem keysNodup_filter {P : FieldMap} (hnd : keysNodup P)
    (pred : String × Value → Bool) : keysNodup (P.filter pred) :=
  List.Nodup.sublist (List.Sublist.map Prod.fst (List.filter_sublist P)) hnd

/-- With distinct keys, the last entry for a field is its unique entry. -/
theorem lastVal_eq_lookupF {c : FieldMap} (hnd : keysNodup c) (f : String) :
    lastVal f c = lookupF f c := by
  induction c with
  | nil => rfl
  | cons kv rest ih =>
      obtain ⟨k, v⟩ := kv
      obtain ⟨hmem, hnd'⟩ := keysNodup_cons hnd
      rw [lastVal_cons, ih hnd']
      by_cases hk : k = f
      · have hrn : lookupF f rest = none :=
          lookupF_none_of_not_mem_keys (by rw [← hk]; exact hmem)
        rw [hrn]
        simp [lookupF, hk]
      · simp only [lookupF, if_neg hk]
        cases lookupF f rest <;> simp [hk]

theorem mem_of_lookupF {f : String} {m : FieldMap} {v : Value}
    (h : lookupF f m = some v) : (f, v) ∈ m := by
  induction m with
  | nil => cases h
  | cons kv rest ih =>
      obtain ⟨k, w⟩ := kv
      by_cases hk : k = f
      · subst hk
        simp only [lookupF, if_pos rfl] at h
        have hw : w = v := Option.some.inj h
        subst hw
        exact List.mem_cons_self _ _
      · simp only [lookupF, if_neg hk] at h
        exact List.mem_cons_of_mem _ (ih h)

theorem jsGet_ne_undef_of_hasKey {m : FieldMap} (hnu : noUndef m) {f : String}
    (hk : hasKey f m = true) : jsGet m f ≠ .undef := by
  rcases Option.isSome_iff_exists.mp (lookupF_isSome_of_hasKey hk) with ⟨v, hv⟩
  rw [jsGet_of_lookupF hv]
  exact hnu (f, v) (mem_of_lookupF hv)

/-- One accepted merge preserves reconstructibility: if the reverse-delta walk
over the old record `(P, cs)` reads back `m0`'s value at every field `m0`
owns, then the walk over the merged record
`(mergeData P lead, changedOf P (mergeData P lead) :: cs)` still does —
provided `P` has distinct keys and `m0` stores no literal `undefined`. -/
theorem reconstruct_step_preserved {P : FieldMap} (hPnd : keysNodup P)
    (lead : FieldMap) (cs : List FieldMap) {m0 : FieldMap} (hm0nu : noUndef m0)
    (hm0 : ∀ f, hasKey f m0 = true → jsGet (reconstruct (P, cs)) f = jsGet m0 f)
    (f : String) (hf : hasKey f m0 = true) :
    jsGet (reconstruct (mergeData P lead,
      changedOf P (mergeData P lead) :: cs)) f = jsGet m0 f := by
  have hold := hm0 f hf
  rw [jsGet_reconstruct] at hold
  rw [jsGet_reconstruct, histTop_cons]
  cases hht : histTop f cs with
  | some w =>
      rw [hht] at hold
      exact hold
  | none =>
      rw [hht] at hold
      dsimp only
      by_cases hhk : hasKey f P = true
      · rcases Option.isSome_iff_exists.mp (lookupF_isSome_of_hasKey hhk)
          with ⟨v, hv⟩
        have hvP : jsGet P f = v := jsGet_of_lookupF hv
        have hCnd : keysNodup (changedOf P (mergeData P lead)) := by
          rw [changedOf_eq_filter hPnd]
          exact keysNodup_filter hPnd _
        rw [lastVal_eq_lookupF hCnd, changedOf_eq_filter hPnd,
          lookupF_filter hPnd, hv]
        dsimp only
        by_cases hNe : jsGet (mergeData P lead) f = v
        · rw [if_neg (by simp [hNe])]
          dsimp only
          rw [hNe, ← hvP]
          exact hold
        · rw [if_pos (by simp [hNe])]
          dsimp only
          rw [← hvP]
          exact hold
      · simp only [Bool.not_eq_true] at hhk
        have hPu : jsGet P f = .undef := jsGet_eq_undef_of_hasKey_false hhk
        rw [hPu] at hold
        exact absurd hold.symm (jsGet_ne_undef_of_hasKey hm0nu hf)

/-- The reconciliation fold keeps every record reconstructible back to some
input lead (its creation lead), on the fields that lead owns, and keeps every
current map's keys distinct. -/
theorem reconcile_foldl_inv (parse : Value → Option Int)
    (leads ls : List FieldMap) (s : List Record)
    (hls : ∀ m ∈ ls, m ∈ leads ∧ keysNodup m ∧ noUndef m)
    (hs : ∀ r ∈ s, keysNodup r.1 ∧ ∃ m0, m0 ∈ leads ∧ keysNodup m0 ∧
      noUndef m0 ∧ ∀ f, hasKey f m0 = true →
        jsGet (reconstruct r) f = jsGet m0 f) :
    ∀ r ∈ ls.foldl (reconcileStep parse) s,
      keysNodup r.1 ∧ ∃ m0, m0 ∈ leads ∧ keysNodup m0 ∧ noUndef m0 ∧
        ∀ f, hasKey f m0 = true → jsGet (reconstruct r) f = jsGet m0 f := by
  induction ls generalizing s with
  | nil => simpa using hs
  | cons l rest ih =>
      rw [List.foldl_cons]
      refine ih (reconcileStep parse s l)
        (fun m hm => hls m (List.mem_cons_of_mem _ hm)) ?_
      intro r hr
      obtain ⟨hlmem, hlnd, hlnu⟩ := hls l (List.mem_cons_self _ _)
      unfold reconcileStep at hr
      cases hfi : findIdxF (fun x => matchKeys l x.1) s with
      | none =>
          rw [hfi] at hr
          dsimp only at hr
          rcases List.mem_append.mp hr with hmem | hmem
          · exact hs r hmem
          · rcases List.mem_singleton.mp hmem with rfl
            exact ⟨hlnd, l, hlmem, hlnd, hlnu, fun f _ => rfl⟩
      | some i =>
          rw [hfi] at hr
          dsimp only at hr
          by_cases hdate : dateGe (parse (jsGet l "entryDate"))
              (parse (jsGet (s.getD i ([], [])).1 "entryDate")) = true
          · rw [if_pos hdate] at hr
            have hidx := findIdxF_some_spec hfi ([], [])
            have hPmem : s.getD i ([], []) ∈ s := by
              rw [List.getD_eq_getElem _ _ hidx.1]
              exact List.getElem_mem hidx.1
            obtain ⟨hPnd, m0, hm0mem, hm0nd, hm0nu, hm0⟩ := hs _ hPmem
            rcases List.mem_or_eq_of_mem_set hr with hmem | heq
            · exact hs r hmem
            · subst heq
              refine ⟨?_, m0, hm0mem, hm0nd, hm0nu, ?_⟩
              · exact keysNodup_jsSet (keysNodup_jsSet hlnd _ _) _ _
              · intro f hf
                exact reconstruct_step_preserved hPnd l
                  (s.getD i ([], [])).2 hm0nu
                  (by
                    intro g hg
                    have := hm0 g hg
                    exact this) f hf
          · rw [if_neg hdate] at hr
            exact hs r hr

/-- C9 counterexample: with `exM0` then `exM1` (matched on `_id`, accepted
merge), the single resulting record's reverse-delta walk yields
`[_id, entryDate d1, name Bob, email undefined]` — not the creation-time map
`exM0`: the `name` field brought by the later merge (and the `email` slot the
merge spread created) is not removed, because fields absent from the previous
map are never recorded in a change object. -/
theorem c9_counterexample :
    (reconcile dateP [exM0, exM1]).length = 1 ∧
    reconstruct ((reconcile dateP [exM0, exM1]).getD 0 ([], [])) ≠ exM0 := by
  constructor
  · rfl
  · decide

/-- C9 amended: the reverse-delta walk (front-to-back over the change list,
most recent first) reconstructs the creation-time field map on the fields that
map owns: for every record in the output there is an input lead — its
creation lead — such that the walk reads back that lead's value at every
field the lead has.  Fields added by later merges may survive the walk, so
the reconstruction need not equal the creation map outright (see the
counterexample).  Requires the real-JS side conditions that input leads have
distinct keys and store no literal `undefined`. -/
theorem c9_amended_reconstruct (parse : Value → Option Int)
    (leads : List FieldMap) (r : Record)
    (hl : ∀ m ∈ leads, keysNodup m ∧ noUndef m)
    (hr : r ∈ reconcile parse leads) :
    ∃ m0, m0 ∈ leads ∧ ∀ f, hasKey f m0 = true →
      jsGet (reconstruct r) f = jsGet m0 f := by
  have hinv := reconcile_foldl_inv parse leads leads []
    (fun m hm => ⟨hm, (hl m hm).1, (hl m hm).2⟩)
    (fun r' hr' => absurd hr' (List.not_mem_nil _))
    r hr
  obtain ⟨-, m0, hmem, -, -, h⟩ := hinv
  exact ⟨m0, hmem, h⟩

/-- Witness for C9 amended at the counterexample run: the walk reads back the
creation lead's `entryDate`. -/
theorem c9_amended_reconstruct_witness :
    jsGet (reconstruct ((reconcile dateP [exM0, exM1]).getD 0 ([], [])))
        "entryDate" = jsGet exM0 "entryDate" := by
  have h := c9_amended_reconstruct dateP [exM0, exM1]
    ((reconcile dateP [exM0, exM1]).getD 0 ([], []))
    (by decide) (by decide)
  obtain ⟨m0, hm0, hf⟩ := h
  rcases List.mem_cons.mp hm0 with rfl | hm1
  · exact hf "entryDate" (by decide)
  · rcases List.mem_singleton.mp hm1 with rfl
    exact absurd (hf "entryDate" (by decide)) (by decide)

end Marketo
